import Mathlib

/-!
Verification of the `edi` terminal text editor's core engine, shallowly
embedded from the C source (`src/unnamed/part_000`, the richest variant):
row data model with tab expansion and per-byte highlighting, key decoding,
document mutation, incremental search, and viewport scrolling.
-/

namespace Edi

/-! ## Constants from the source -/

def EDI_TAB_STOP : Nat := 8

-- enum editorKey
def BACKSPACE : Nat := 127
def ARROW_UP : Nat := 1000
def ARROW_DOWN : Nat := 1001
def ARROW_LEFT : Nat := 1002
def ARROW_RIGHT : Nat := 1003
def DEL_KEY : Nat := 1004
def HOME_KEY : Nat := 1005
def END_KEY : Nat := 1006
def PAGE_UP : Nat := 1007
def PAGE_DOWN : Nat := 1008

-- enum editorHighlight
def HL_NORMAL : Nat := 0
def HL_COMMENT : Nat := 1
def HL_STRING : Nat := 2
def HL_NUMBER : Nat := 3
def HL_MATCH : Nat := 4

def HL_HIGHLIGHT_NUMBERS : Nat := 1
def HL_HIGHLIGHT_STRINGS : Nat := 2

/-! ## Data model

`erow`: `size` and `rsize` are the lengths of `chars` and `render`, so the
embedding carries only the three sequences. -/

structure Erow where
  chars : List Char
  render : List Char
  hl : List Nat
  deriving Repr, DecidableEq, Inhabited

/-- `struct editorSyntax` (the `file_match` patterns play no role in the
claims; profile selection is modelled by which profile is passed in). -/
structure EditorSyntax where
  file_type : List Char
  singleline_comment_start : List Char
  flags : Nat
  deriving Repr, DecidableEq, Inhabited

/-- `struct editorConfig` (terminal fields dropped; `num_rows = row.length`). -/
structure EditorConfig where
  cx : Nat
  cy : Nat
  rx : Nat
  row_offset : Nat
  col_offset : Nat
  screen_rows : Nat
  screen_cols : Nat
  row : List Erow
  dirty : Nat
  esyn : Option EditorSyntax
  deriving Repr, DecidableEq, Inhabited

/-! ## Row operations: coordinate conversion (`editorRowCxToRx`, `editorRowRxToCx`) -/

/-- One step of the shared tab rule: `if (chars[j] == '\t') rx += (TAB_STOP-1) - rx % TAB_STOP; rx++;` -/
def cxToRxStep (c : Char) (rx : Nat) : Nat :=
  (if c = '\t' then rx + ((EDI_TAB_STOP - 1) - rx % EDI_TAB_STOP) else rx) + 1

/-- The loop of `editorRowCxToRx`: walk the first `cx` characters accumulating `rx`. -/
def editorRowCxToRxAux : List Char → Nat → Nat → Nat
  | _, 0, rx => rx
  | [], _ + 1, rx => rx
  | c :: rest, j + 1, rx => editorRowCxToRxAux rest j (cxToRxStep c rx)

def editorRowCxToRx (row : Erow) (cx : Nat) : Nat :=
  editorRowCxToRxAux row.chars cx 0

/-- The loop of `editorRowRxToCx`: accumulate `curr_rx` by the same rule and
return the first `cx` with `curr_rx > rx`; falls through to `row->size`. -/
def editorRowRxToCxAux : List Char → Nat → Nat → Nat → Nat
  | [], _, _, cx => cx
  | c :: rest, rx, curr_rx, cx =>
    let curr2 := cxToRxStep c curr_rx
    if curr2 > rx then cx else editorRowRxToCxAux rest rx curr2 (cx + 1)

def editorRowRxToCx (row : Erow) (rx : Nat) : Nat :=
  editorRowRxToCxAux row.chars rx 0 0

/-! ## Row operations: render string (`editorUpdateRow`'s tab expansion) -/

/-- The render-building loop of `editorUpdateRow`: a tab emits one space and
then pads with spaces until `idx % EDI_TAB_STOP == 0`; any other byte is
copied. `idx` is the length of the output built so far. -/
def renderChars (chars : List Char) : List Char :=
  chars.foldl
    (fun acc c =>
      if c = '\t' then acc ++ List.replicate (EDI_TAB_STOP - acc.length % EDI_TAB_STOP) ' '
      else acc ++ [c])
    []

/-! ## Syntax highlighting (`is_separator`, `editorUpdateSyntax`) -/

/-- `isspace(c)` for the ASCII range the editor works in. -/
def isspaceC (c : Char) : Bool :=
  c = ' ' || c = '\t' || c = '\n' || c = '\x0b' || c = '\x0c' || c = '\r'

/-- `isdigit(c)`. -/
def isdigitC (c : Char) : Bool :=
  '0' ≤ c && c ≤ '9'

def is_separator (c : Char) : Bool :=
  isspaceC c || c = '\x00' ||
    [',', '.', '(', ')', '+', '-', '/', '*', '=', '~', '%', '<', '>', '[', ']', ';'].contains c

/-- The scan loop of `editorUpdateSyntax`, walking `render` at index `i` with
carried state: the partially written `hl` array, `prev_sep`, and `in_string`
(0, or the code of the quote character that opened the string). -/
def updateSyntaxLoop (scs : List Char) (flags : Nat) (render : List Char)
    (hl : List Nat) (prev_sep : Bool) (in_string : Nat) (i : Nat) : List Nat :=
  if h : i < render.length then
    if scs.length ≠ 0 ∧ in_string = 0 ∧ scs.isPrefixOf (render.drop i) then
      hl.take i ++ List.replicate (hl.length - i) HL_COMMENT
    else if flags &&& HL_HIGHLIGHT_STRINGS ≠ 0 ∧ in_string ≠ 0 then
      if render.get ⟨i, h⟩ = '\\' ∧ i + 1 < render.length then
        updateSyntaxLoop scs flags render ((hl.set i HL_STRING).set (i + 1) HL_STRING)
          prev_sep in_string (i + 2)
      else
        updateSyntaxLoop scs flags render (hl.set i HL_STRING) true
          (if (render.get ⟨i, h⟩).toNat = in_string then 0 else in_string) (i + 1)
    else if flags &&& HL_HIGHLIGHT_STRINGS ≠ 0 ∧ in_string = 0 ∧
        (render.get ⟨i, h⟩ = '"' ∨ render.get ⟨i, h⟩ = '\'') then
      updateSyntaxLoop scs flags render (hl.set i HL_STRING) prev_sep
        (render.get ⟨i, h⟩).toNat (i + 1)
    else if flags &&& HL_HIGHLIGHT_NUMBERS ≠ 0 ∧
        ((isdigitC (render.get ⟨i, h⟩) ∧
            (prev_sep ∨ (if i > 0 then hl.getD (i - 1) HL_NORMAL else HL_NORMAL) = HL_NUMBER)) ∨
          (render.get ⟨i, h⟩ = '.' ∧
            (if i > 0 then hl.getD (i - 1) HL_NORMAL else HL_NORMAL) = HL_NUMBER)) then
      updateSyntaxLoop scs flags render (hl.set i HL_NUMBER) false in_string (i + 1)
    else
      updateSyntaxLoop scs flags render hl (is_separator (render.get ⟨i, h⟩)) in_string (i + 1)
  else hl
termination_by render.length - i
decreasing_by all_goals omega

/-- `editorUpdateSyntax`: reallocate `hl` to `rsize` bytes of `HL_NORMAL`,
return if no profile is active, else run the scan with `prev_sep = 1`,
`in_string = 0`, `i = 0`. -/
def editorUpdateSyntax (syn : Option EditorSyntax) (render : List Char) : List Nat :=
  let hl := List.replicate render.length HL_NORMAL
  match syn with
  | none => hl
  | some s => updateSyntaxLoop s.singleline_comment_start s.flags render hl true 0 0

/-- `editorUpdateRow`: rebuild `render` from `chars` by tab expansion, then
rerun `editorUpdateSyntax` on the row. -/
def editorUpdateRow (syn : Option EditorSyntax) (row : Erow) : Erow :=
  let render := renderChars row.chars
  { chars := row.chars, render := render, hl := editorUpdateSyntax syn render }

/-! ## Length preservation of the highlight arrays -/

theorem updateSyntaxLoop_length (scs : List Char) (flags : Nat) (render : List Char) :
    ∀ (n : Nat) (hl : List Nat) (prev_sep : Bool) (in_string i : Nat),
      render.length - i ≤ n → hl.length = render.length →
      (updateSyntaxLoop scs flags render hl prev_sep in_string i).length = render.length := by
  intro n
  induction n with
  | zero =>
    intro hl ps ins i hn hlen
    rw [updateSyntaxLoop, dif_neg (by omega)]
    exact hlen
  | succ n ih =>
    intro hl ps ins i hn hlen
    rw [updateSyntaxLoop]
    by_cases h : i < render.length
    · rw [dif_pos h]
      split_ifs
      all_goals first
        | (simp only [List.length_append, List.length_take, List.length_replicate]; omega)
        | exact ih _ _ _ _ (by omega) (by simp [hlen])
    · rw [dif_neg h]
      exact hlen

/-- `editorUpdateSyntax` writes exactly one highlight byte per render byte. -/
theorem editorUpdateSyntax_length (syn : Option EditorSyntax) (render : List Char) :
    (editorUpdateSyntax syn render).length = render.length := by
  cases syn with
  | none => simp [editorUpdateSyntax]
  | some s =>
    exact updateSyntaxLoop_length _ _ _ render.length _ _ _ _ (by omega) (by simp)

/-! ## Row insert/delete and character edits (`editorInsertRow` … `editorRowDelChar`)

`memmove`-based array edits become `take`/`drop` splices on the row list. -/

def editorInsertRow (at_ : Nat) (s : List Char) (E : EditorConfig) : EditorConfig :=
  if at_ > E.row.length then E
  else
    { E with
        row := E.row.take at_ ++
          editorUpdateRow E.esyn { chars := s, render := [], hl := [] } :: E.row.drop at_,
        dirty := E.dirty + 1 }

def editorDelRow (at_ : Nat) (E : EditorConfig) : EditorConfig :=
  if at_ ≥ E.row.length then E
  else { E with row := E.row.take at_ ++ E.row.drop (at_ + 1), dirty := E.dirty + 1 }

/-- `editorRowInsertChar` (the caller bumps `E.dirty`): an out-of-range index
is clamped to the end of the row, then the character is spliced in. -/
def editorRowInsertChar (syn : Option EditorSyntax) (row : Erow) (at_ : Nat) (c : Char) : Erow :=
  let a := if at_ > row.chars.length then row.chars.length else at_
  editorUpdateRow syn { row with chars := row.chars.take a ++ c :: row.chars.drop a }

def editorRowAppendString (syn : Option EditorSyntax) (row : Erow) (s : List Char) : Erow :=
  editorUpdateRow syn { row with chars := row.chars ++ s }

def editorRowDelChar (syn : Option EditorSyntax) (row : Erow) (at_ : Nat) : Erow :=
  if at_ ≥ row.chars.length then row
  else editorUpdateRow syn { row with chars := row.chars.take at_ ++ row.chars.drop (at_ + 1) }

/-! ## Editor operations (`editorInsertChar`, `editorInsertNewline`, `editorDelChar`) -/

def editorInsertChar (c : Char) (E : EditorConfig) : EditorConfig :=
  let E1 := if E.cy = E.row.length then editorInsertRow E.row.length [] E else E
  { E1 with
      row := E1.row.set E1.cy
        (editorRowInsertChar E1.esyn (E1.row.getD E1.cy default) E1.cx c),
      cx := E1.cx + 1,
      dirty := E1.dirty + 1 }

def editorInsertNewline (E : EditorConfig) : EditorConfig :=
  if E.cx = 0 then
    let E1 := editorInsertRow E.cy [] E
    { E1 with cy := E1.cy + 1, cx := 0 }
  else
    let r := E.row.getD E.cy default
    let E1 := editorInsertRow (E.cy + 1) (r.chars.drop E.cx) E
    let E2 := { E1 with
      row := E1.row.set E1.cy (editorUpdateRow E1.esyn { r with chars := r.chars.take E.cx }) }
    { E2 with cy := E2.cy + 1, cx := 0 }

def editorDelChar (E : EditorConfig) : EditorConfig :=
  if E.cy = E.row.length then E
  else if E.cx = 0 ∧ E.cy = 0 then E
  else
    let r := E.row.getD E.cy default
    if E.cx > 0 then
      { E with
          row := E.row.set E.cy (editorRowDelChar E.esyn r (E.cx - 1)),
          cx := E.cx - 1,
          dirty := E.dirty + 1 }
    else
      let E1 := { E with
        cx := (E.row.getD (E.cy - 1) default).chars.length,
        row := E.row.set (E.cy - 1)
          (editorRowAppendString E.esyn (E.row.getD (E.cy - 1) default) r.chars),
        dirty := E.dirty + 1 }
      let E2 := editorDelRow E.cy E1
      { E2 with cy := E.cy - 1 }

/-- `editorSelectSyntaxHighlight`, parametrised by the profile the filename
matching selected: no match leaves every row's highlighting untouched, a
match re-runs `editorUpdateSyntax` over every row. -/
def editorSelectSyntaxHighlight (syn : Option EditorSyntax) (E : EditorConfig) : EditorConfig :=
  match syn with
  | none => { E with esyn := none }
  | some s =>
    { E with
        esyn := some s,
        row := E.row.map (fun r => { r with hl := editorUpdateSyntax (some s) r.render }) }

/-! ## File serialisation (`editorRowsToString`) -/

/-- The length computation of `editorRowsToString`: one byte per character
plus one newline byte per row. -/
def editorRowsToStringLen (rows : List Erow) : Nat :=
  rows.foldl (fun total r => total + (r.chars.length + 1)) 0

/-- The buffer `editorRowsToString` fills: each row's `chars` followed by `'\n'`. -/
def editorRowsToString (rows : List Erow) : List Char :=
  rows.foldr (fun r buff => r.chars ++ '\n' :: buff) []

/-! ## Incremental search (`editorFindCallback`) -/

/-- `strstr(hay, needle)` as the byte offset of the first occurrence. -/
def strstrIdx (hay needle : List Char) : Option Nat :=
  match hay with
  | [] => if needle.isPrefixOf ([] : List Char) then some 0 else none
  | c :: t => if needle.isPrefixOf (c :: t) then some 0 else (strstrIdx t needle).map (· + 1)

/-- The static state of `editorFindCallback` between keystrokes. -/
structure FindState where
  last_match : Int
  direction : Int
  saved_hl_line : Nat
  saved_hl : Option (List Nat)
  deriving Repr, DecidableEq, Inhabited

/-- The row-scan loop of `editorFindCallback`: step `current` by `direction`,
wrap past either end, and stop at the first row whose `render` contains the
query; at most `num_rows` iterations (the fuel). Returns the matched row
index and the match's render-space offset. -/
def searchLoop (rows : List Erow) (query : List Char) (direction : Int) :
    Nat → Int → Option (Nat × Nat)
  | 0, _ => none
  | n + 1, current =>
    let current1 := current + direction
    let current2 := if current1 = -1 then (rows.length : Int) - 1
                    else if current1 = (rows.length : Int) then 0 else current1
    match strstrIdx (rows.getD current2.toNat default).render query with
    | some off => some (current2.toNat, off)
    | none => searchLoop rows query direction n current2

/-- `memset(&hl[off], v, len)`. -/
def memsetRange (hl : List Nat) (off len v : Nat) : List Nat :=
  hl.take off ++ List.replicate len v ++ hl.drop (off + len)

/-- One step of `editorFindCallback` (the body minus the prompt plumbing):
restore any saved highlight snapshot, interpret the key, scan, and on a
match move the cursor, force the match row to the top, snapshot the row's
highlighting and overlay `HL_MATCH` over the matched bytes. -/
def editorFindCallback (query : List Char) (key : Nat) (st : FindState) (E : EditorConfig) :
    FindState × EditorConfig :=
  let E0 := match st.saved_hl with
    | some saved =>
      let r1 := { E.row.getD st.saved_hl_line default with hl := saved }
      { E with row := E.row.set st.saved_hl_line r1 }
    | none => E
  let st0 := { st with saved_hl := none }
  if key = 13 ∨ key = 27 then
    ({ st0 with last_match := -1, direction := 1 }, E0)
  else
    let dir : Int :=
      if key = ARROW_RIGHT ∨ key = ARROW_DOWN then 1
      else if key = ARROW_LEFT ∨ key = ARROW_UP then -1
      else 1
    let lm : Int :=
      if key = ARROW_RIGHT ∨ key = ARROW_DOWN ∨ key = ARROW_LEFT ∨ key = ARROW_UP then
        st0.last_match
      else -1
    let dir1 := if lm = -1 then 1 else dir
    match searchLoop E0.row query dir1 E0.row.length lm with
    | some (idx, off) =>
      let r := E0.row.getD idx default
      let st1 := { st0 with last_match := (idx : Int), direction := dir1, saved_hl_line := idx, saved_hl := some r.hl }
      let r2 := { r with hl := memsetRange r.hl off query.length HL_MATCH }
      let E1 := { E0 with cy := idx, cx := editorRowRxToCx r off, row_offset := E0.row.length, row := E0.row.set idx r2 }
      (st1, E1)
    | none => ({ st0 with last_match := lm, direction := dir1 }, E0)

/-! ## Viewport scrolling (`editorScroll`) -/

def editorScroll (E : EditorConfig) : EditorConfig :=
  let rx := if E.cy < E.row.length then editorRowCxToRx (E.row.getD E.cy default) E.cx else 0
  let ro0 := if E.cy < E.row_offset then E.cy else E.row_offset
  let ro := if E.cy ≥ ro0 + E.screen_rows then E.cy - E.screen_rows + 1 else ro0
  let co0 := if rx < E.col_offset then rx else E.col_offset
  let co := if rx ≥ co0 + E.screen_cols then rx - E.screen_cols + 1 else co0
  { E with rx := rx, row_offset := ro, col_offset := co }

/-! ## Key decoding (`editorReadKey`) -/

/-- `editorReadKey` on one already-read byte `c` and the stream of bytes a
further `read` would yield; an exhausted stream is the read timeout. -/
def editorReadKey (c : Nat) (rest : List Nat) : Nat :=
  if c = 27 then
    match rest with
    | s0 :: s1 :: rest2 =>
      if s0 = 91 then
        if 48 ≤ s1 ∧ s1 ≤ 57 then
          match rest2 with
          | s2 :: _ =>
            if s2 = 126 then
              if s1 = 49 then HOME_KEY
              else if s1 = 51 then DEL_KEY
              else if s1 = 52 then END_KEY
              else if s1 = 53 then PAGE_UP
              else if s1 = 54 then PAGE_DOWN
              else if s1 = 55 then HOME_KEY
              else if s1 = 56 then END_KEY
              else 27
            else 27
          | [] => 27
        else
          if s1 = 65 then ARROW_UP
          else if s1 = 66 then ARROW_DOWN
          else if s1 = 67 then ARROW_RIGHT
          else if s1 = 68 then ARROW_LEFT
          else if s1 = 72 then HOME_KEY
          else if s1 = 70 then END_KEY
          else 27
      else if s0 = 79 then
        if s1 = 72 then HOME_KEY
        else if s1 = 70 then END_KEY
        else 27
      else 27
    | _ => 27
  else c

/-! ## Cursor movement and key dispatch (`editorMoveCursor`, `editorProcessKeypress`) -/

/-- The `switch (key)` of `editorMoveCursor`. -/
def editorMoveCursorStep (key : Nat) (E : EditorConfig) : EditorConfig :=
    if key = ARROW_LEFT then
      if E.cx ≠ 0 then { E with cx := E.cx - 1 }
      else if E.cy > 0 then
        { E with cy := E.cy - 1, cx := (E.row.getD (E.cy - 1) default).chars.length }
      else E
    else if key = ARROW_RIGHT then
      if E.cy ≥ E.row.length then E
      else if E.cx < (E.row.getD E.cy default).chars.length then { E with cx := E.cx + 1 }
      else if E.cx = (E.row.getD E.cy default).chars.length then { E with cy := E.cy + 1, cx := 0 }
      else E
    else if key = ARROW_UP then
      if E.cy ≠ 0 then { E with cy := E.cy - 1 } else E
    else if key = ARROW_DOWN then
      if E.cy < E.row.length then { E with cy := E.cy + 1 } else E
    else E

/-- `editorMoveCursor`: the key switch, then the snap of `cx` to the new
row's length. -/
def editorMoveCursor (key : Nat) (E : EditorConfig) : EditorConfig :=
  let E1 := editorMoveCursorStep key E
  let row_len := if E1.cy ≥ E1.row.length then 0 else (E1.row.getD E1.cy default).chars.length
  if E1.cx > row_len then { E1 with cx := row_len } else E1

/-- The state transition of `editorProcessKeypress` on one decoded key
(quit, save and find route elsewhere and leave the document and cursor
untouched here; find's cursor effect is `editorFindCallback`). -/
def editorProcessKey (c : Nat) (E : EditorConfig) : EditorConfig :=
  if c = 13 then editorInsertNewline E
  else if c = 17 ∨ c = 19 ∨ c = 6 then E
  else if c = HOME_KEY then { E with cx := 0 }
  else if c = END_KEY then
    if E.cy < E.row.length then
      { E with cx := (E.row.getD E.cy default).chars.length }
    else E
  else if c = BACKSPACE ∨ c = 8 ∨ c = DEL_KEY then
    editorDelChar (if c = DEL_KEY then editorMoveCursor ARROW_RIGHT E else E)
  else if c = PAGE_UP ∨ c = PAGE_DOWN then
    let E1 :=
      if c = PAGE_UP then { E with cy := E.row_offset }
      else
        let cy1 := E.row_offset + E.screen_rows - 1
        { E with cy := if cy1 > E.row.length then E.row.length else cy1 }
    (editorMoveCursor (if c = PAGE_UP then ARROW_UP else ARROW_DOWN))^[E1.screen_rows] E1
  else if c = ARROW_UP ∨ c = ARROW_DOWN ∨ c = ARROW_LEFT ∨ c = ARROW_RIGHT then
    editorMoveCursor c E
  else if c = 12 ∨ c = 27 then E
  else editorInsertChar (Char.ofNat c) E

/-! ## Lemmas about coordinate conversion -/

theorem cxToRxStep_gt (c : Char) (rx : Nat) : rx < cxToRxStep c rx := by
  simp only [cxToRxStep, EDI_TAB_STOP]
  split <;> omega

theorem editorRowCxToRxAux_ge (chars : List Char) :
    ∀ cx rx : Nat, rx ≤ editorRowCxToRxAux chars cx rx := by
  induction chars with
  | nil => intro cx rx; cases cx <;> simp [editorRowCxToRxAux]
  | cons c rest ih =>
    intro cx rx
    cases cx with
    | zero => simp [editorRowCxToRxAux]
    | succ j =>
      calc rx ≤ cxToRxStep c rx := (cxToRxStep_gt c rx).le
        _ ≤ editorRowCxToRxAux rest j (cxToRxStep c rx) := ih j _

theorem editorRow_roundtrip_aux (chars : List Char) :
    ∀ cx rx0 acc : Nat, cx ≤ chars.length →
      editorRowRxToCxAux chars (editorRowCxToRxAux chars cx rx0) rx0 acc = acc + cx := by
  induction chars with
  | nil =>
    intro cx rx0 acc h
    have : cx = 0 := by simpa using h
    subst this
    simp [editorRowCxToRxAux, editorRowRxToCxAux]
  | cons c rest ih =>
    intro cx rx0 acc h
    cases cx with
    | zero =>
      simp only [editorRowCxToRxAux, editorRowRxToCxAux]
      rw [if_pos (cxToRxStep_gt c rx0)]
      omega
    | succ j =>
      simp only [editorRowCxToRxAux, editorRowRxToCxAux]
      rw [if_neg (by simpa using editorRowCxToRxAux_ge rest j (cxToRxStep c rx0))]
      rw [ih j (cxToRxStep c rx0) (acc + 1) (by simpa using h)]
      omega

/-- Claim C1: edit-space → render-space → edit-space is the identity for
every cursor column `cx` in `[0, row.size]`: `editorRowRxToCx row
(editorRowCxToRx row cx) = cx`, tabs advancing the render column to the
next multiple of the tab stop (8). -/
theorem editorRowRxToCx_editorRowCxToRx (row : Erow) (cx : Nat)
    (h : cx ≤ row.chars.length) :
    editorRowRxToCx row (editorRowCxToRx row cx) = cx := by
  simpa using editorRow_roundtrip_aux row.chars cx 0 0 h

theorem editorRowRxToCx_editorRowCxToRx_witness :
    2 ≤ (['a', '\t', 'b'] : List Char).length ∧
      editorRowRxToCx ⟨['a', '\t', 'b'], [], []⟩
        (editorRowCxToRx ⟨['a', '\t', 'b'], [], []⟩ 2) = 2 :=
  ⟨by decide, editorRowRxToCx_editorRowCxToRx ⟨['a', '\t', 'b'], [], []⟩ 2 (by decide)⟩

theorem editorRowRxToCxAux_le (chars : List Char) :
    ∀ rx curr acc : Nat, editorRowRxToCxAux chars rx curr acc ≤ acc + chars.length := by
  induction chars with
  | nil => intro rx curr acc; simp [editorRowRxToCxAux]
  | cons c rest ih =>
    intro rx curr acc
    simp only [editorRowRxToCxAux]
    split
    · omega
    · calc editorRowRxToCxAux rest rx (cxToRxStep c curr) (acc + 1)
          ≤ acc + 1 + rest.length := ih rx _ (acc + 1)
        _ ≤ acc + (c :: rest).length := by simp; omega

theorem editorRowRxToCxAux_full (chars : List Char) :
    ∀ rx curr acc : Nat, editorRowCxToRxAux chars chars.length curr ≤ rx →
      editorRowRxToCxAux chars rx curr acc = acc + chars.length := by
  induction chars with
  | nil => intro rx curr acc _; simp [editorRowRxToCxAux]
  | cons c rest ih =>
    intro rx curr acc h
    simp only [editorRowCxToRxAux, List.length_cons] at h
    have hstep : cxToRxStep c curr ≤ rx :=
      le_trans (editorRowCxToRxAux_ge rest rest.length (cxToRxStep c curr)) h
    simp only [editorRowRxToCxAux]
    rw [if_neg (by omega)]
    rw [ih rx (cxToRxStep c curr) (acc + 1) h]
    simp; omega

theorem renderChars_go_length (chars : List Char) :
    ∀ acc : List Char,
      (List.foldl
        (fun acc c =>
          if c = '\t' then acc ++ List.replicate (EDI_TAB_STOP - acc.length % EDI_TAB_STOP) ' '
          else acc ++ [c])
        acc chars).length = editorRowCxToRxAux chars chars.length acc.length := by
  induction chars with
  | nil => intro acc; simp [editorRowCxToRxAux]
  | cons c rest ih =>
    intro acc
    simp only [List.foldl_cons, List.length_cons, editorRowCxToRxAux]
    rw [ih]
    congr 1
    by_cases hc : c = '\t'
    · subst hc
      simp [cxToRxStep, EDI_TAB_STOP]
      omega
    · simp [hc, cxToRxStep]

/-- The rendered width of a row equals `editorRowCxToRx` at the full column
count: tab expansion and the `rx` walk follow the same rule. -/
theorem renderChars_length (chars : List Char) :
    (renderChars chars).length = editorRowCxToRxAux chars chars.length 0 := by
  simpa using renderChars_go_length chars []

/-- Claim C9: `editorRowRxToCx` is total and always lands in `[0, row.size]`;
for any target `rx` at least the row's full rendered width the result is
exactly `row.size`, so a search match offset never yields an out-of-bounds
cursor column. -/
theorem editorRowRxToCx_bounds (row : Erow) (rx : Nat) :
    editorRowRxToCx row rx ≤ row.chars.length ∧
      ((renderChars row.chars).length ≤ rx →
        editorRowRxToCx row rx = row.chars.length) := by
  constructor
  · simpa using editorRowRxToCxAux_le row.chars rx 0 0
  · intro h
    rw [renderChars_length] at h
    simpa using editorRowRxToCxAux_full row.chars rx 0 0 h

theorem editorRowRxToCx_bounds_witness :
    editorRowRxToCx ⟨['x', '\t', 'y'], [], []⟩ 100 ≤ 3 ∧
      editorRowRxToCx ⟨['x', '\t', 'y'], [], []⟩ 100 = 3 :=
  ⟨(editorRowRxToCx_bounds ⟨['x', '\t', 'y'], [], []⟩ 100).1,
   (editorRowRxToCx_bounds ⟨['x', '\t', 'y'], [], []⟩ 100).2 (by decide)⟩

/-! ## Serialisation: claim C8 -/

theorem editorRowsToStringLen_go (rows : List Erow) :
    ∀ a : Nat, rows.foldl (fun total r => total + (r.chars.length + 1)) a =
      a + rows.foldl (fun total r => total + (r.chars.length + 1)) 0 := by
  induction rows with
  | nil => intro a; simp
  | cons r t ih =>
    intro a
    simp only [List.foldl_cons]
    rw [ih (a + (r.chars.length + 1)), ih (0 + (r.chars.length + 1))]
    omega

/-- Claim C8: saving serialises the rows as each row's raw bytes followed by
one newline; the buffer's length is the sum over rows of `size + 1`, and
the document `["a","bb"]` serialises to exactly the 5 bytes `"a\nbb\n"`. -/
theorem editorRowsToString_serialises :
    (∀ rows : List Erow,
      (editorRowsToString rows).length = editorRowsToStringLen rows ∧
      editorRowsToStringLen rows = (rows.map (fun r => r.chars.length + 1)).sum) ∧
    editorRowsToString [⟨['a'], ['a'], [0]⟩, ⟨['b', 'b'], ['b', 'b'], [0, 0]⟩] =
      ['a', '\n', 'b', 'b', '\n'] ∧
    editorRowsToStringLen [⟨['a'], ['a'], [0]⟩, ⟨['b', 'b'], ['b', 'b'], [0, 0]⟩] = 5 := by
  refine ⟨?_, by decide, by decide⟩
  intro rows
  induction rows with
  | nil => simp [editorRowsToString, editorRowsToStringLen]
  | cons r t ih =>
    refine ⟨?_, ?_⟩
    · simp only [editorRowsToString, List.foldr_cons, editorRowsToStringLen,
        List.foldl_cons] at ih ⊢
      rw [editorRowsToStringLen_go t (0 + (r.chars.length + 1))]
      simp [ih.1]
      omega
    · simp only [editorRowsToStringLen, List.foldl_cons, List.map_cons, List.sum_cons] at ih ⊢
      rw [editorRowsToStringLen_go t (0 + (r.chars.length + 1))]
      omega

/-! ## Viewport scrolling: claim C5 -/

/-- A 100-row document with the cursor on row 99, a 20-row viewport and the
viewport top at row 81 — a state the editor itself reaches (`cy = 100` on
the virtual row scrolls the offset to 81, then one Arrow-Up). -/
def scrollDemoState : EditorConfig :=
  { cx := 0, cy := 99, rx := 0, row_offset := 81, col_offset := 0,
    screen_rows := 20, screen_cols := 80, row := List.replicate 100 default,
    dirty := 0, esyn := none }

/-- Counterexample to claim C5 as stated: with 100 rows, a 20-row viewport
and `cy = 99`, a prior `row_offset` of 81 is left at 81 by
`editorScroll`, not set to 80 — the clamp only raises an offset that left
the cursor below the window. -/
theorem editorScroll_not_always_80 :
    scrollDemoState.cy = 99 ∧ scrollDemoState.row.length = 100 ∧
      scrollDemoState.screen_rows = 20 ∧
      (editorScroll scrollDemoState).row_offset = 81 := by
  refine ⟨rfl, by simp [scrollDemoState], rfl, ?_⟩
  decide

/-- Claim C5 (amended): `editorScroll` always leaves the cursor row inside
the visible window (`row_offset ≤ cy < row_offset + screen_rows`, for a
positive number of screen rows); in the 100-row, 20-row-viewport, `cy = 99`
scenario it yields `row_offset = 80` for every prior `row_offset ≤ 80`
(and any column offsets), though a prior `row_offset` in `81..99` is
already within reach of the cursor and is kept. -/
theorem editorScroll_clamps :
    (∀ E : EditorConfig, 1 ≤ E.screen_rows →
      (editorScroll E).row_offset ≤ E.cy ∧
        E.cy < (editorScroll E).row_offset + E.screen_rows) ∧
    (∀ E : EditorConfig, E.cy = 99 → E.row.length = 100 → E.screen_rows = 20 →
      E.row_offset ≤ 80 → (editorScroll E).row_offset = 80) := by
  constructor
  · intro E hsr
    simp only [editorScroll]
    split_ifs <;> constructor <;> omega
  · intro E hcy hrows hsr hro
    simp only [editorScroll]
    split_ifs <;> omega

theorem editorScroll_clamps_witness :
    (editorScroll { scrollDemoState with row_offset := 0 }).row_offset ≤ 99 ∧
      (99 : Nat) < (editorScroll { scrollDemoState with row_offset := 0 }).row_offset + 20 ∧
      (editorScroll { scrollDemoState with row_offset := 0 }).row_offset = 80 := by
  refine ⟨(editorScroll_clamps.1 _ (by decide)).1, ?_, ?_⟩
  · exact (editorScroll_clamps.1 { scrollDemoState with row_offset := 0 } (by decide)).2
  · exact editorScroll_clamps.2 { scrollDemoState with row_offset := 0 } rfl
      (by simp [scrollDemoState]) rfl (by decide)

/-! ## Horizontal wrap-around of the cursor: claim C10 -/

/-- Claim C10: Left at column 0 of a non-first row wraps to the end of the
previous row; Right at the end of a row wraps to column 0 of the next row;
Left at (0,0) and Right on the virtual row past EOF change nothing. -/
theorem editorMoveCursor_wraps :
    (∀ E : EditorConfig, E.cx = 0 → 0 < E.cy → E.cy ≤ E.row.length →
      (editorMoveCursor ARROW_LEFT E).cy = E.cy - 1 ∧
        (editorMoveCursor ARROW_LEFT E).cx =
          (E.row.getD (E.cy - 1) default).chars.length) ∧
    (∀ E : EditorConfig, E.cy < E.row.length →
      E.cx = (E.row.getD E.cy default).chars.length →
      (editorMoveCursor ARROW_RIGHT E).cy = E.cy + 1 ∧
        (editorMoveCursor ARROW_RIGHT E).cx = 0) ∧
    (∀ E : EditorConfig, E.cx = 0 → E.cy = 0 → editorMoveCursor ARROW_LEFT E = E) ∧
    (∀ E : EditorConfig, E.cy = E.row.length → E.cx = 0 →
      editorMoveCursor ARROW_RIGHT E = E) := by
  refine ⟨?_, ?_, ?_, ?_⟩
  · intro E hcx hcy hle
    simp only [editorMoveCursor, editorMoveCursorStep, ARROW_LEFT, ARROW_RIGHT, ARROW_UP, ARROW_DOWN]
    norm_num
    split_ifs <;> (try simp_all) <;> omega
  · intro E hcy hcx
    simp only [editorMoveCursor, editorMoveCursorStep, ARROW_LEFT, ARROW_RIGHT, ARROW_UP, ARROW_DOWN]
    norm_num
    split_ifs <;> (try simp_all) <;> omega
  · intro E hcx hcy
    simp only [editorMoveCursor, editorMoveCursorStep, ARROW_LEFT, ARROW_RIGHT, ARROW_UP, ARROW_DOWN]
    norm_num
    split_ifs <;> (try simp_all) <;> omega
  · intro E hcy hcx
    simp only [editorMoveCursor, editorMoveCursorStep, ARROW_LEFT, ARROW_RIGHT, ARROW_UP, ARROW_DOWN]
    norm_num
    split_ifs <;> (try simp_all) <;> omega

def wrapDemoRow : Erow := ⟨['a', 'b'], ['a', 'b'], [0, 0]⟩

def wrapDemoA : EditorConfig :=
  { cx := 0, cy := 1, rx := 0, row_offset := 0, col_offset := 0, screen_rows := 20,
    screen_cols := 80, row := [wrapDemoRow, default], dirty := 0, esyn := none }

def wrapDemoB : EditorConfig := { wrapDemoA with cy := 0, cx := 2 }

def wrapDemoC : EditorConfig := { wrapDemoA with cy := 0, cx := 0, row := [default] }

def wrapDemoD : EditorConfig := { wrapDemoA with cy := 1, cx := 0, row := [default] }

theorem editorMoveCursor_wraps_witness :
    (editorMoveCursor ARROW_LEFT wrapDemoA).cy = 0 ∧
      (editorMoveCursor ARROW_LEFT wrapDemoA).cx = 2 ∧
      (editorMoveCursor ARROW_RIGHT wrapDemoB).cy = 1 ∧
      (editorMoveCursor ARROW_RIGHT wrapDemoB).cx = 0 ∧
      editorMoveCursor ARROW_LEFT wrapDemoC = wrapDemoC ∧
      editorMoveCursor ARROW_RIGHT wrapDemoD = wrapDemoD := by
  refine ⟨?_, ?_, ?_, ?_, ?_, ?_⟩
  · exact (editorMoveCursor_wraps.1 wrapDemoA rfl (by decide) (by decide)).1
  · exact (editorMoveCursor_wraps.1 wrapDemoA rfl (by decide) (by decide)).2
  · exact (editorMoveCursor_wraps.2.1 wrapDemoB (by decide) (by decide)).1
  · exact (editorMoveCursor_wraps.2.1 wrapDemoB (by decide) (by decide)).2
  · exact editorMoveCursor_wraps.2.2.1 wrapDemoC rfl rfl
  · exact editorMoveCursor_wraps.2.2.2 wrapDemoD (by decide) rfl

/-! ## Key decoding: claim C3

The spec's decoding table, written as the spec states it, to compare the
code's decoder against: arrows `[A/B/C/D`; Home `[H`/`OH`/`[1~`/`[7~`; End
`[F`/`OF`/`[4~`/`[8~`; Delete `[3~`; PageUp `[5~`; PageDown `[6~`; any
other escape-initiated combination (or an exhausted stream, the read
timeout) resolves to the literal Escape byte 27. -/

def specKeyTable (rest : List Nat) : Option Nat :=
  match rest with
  | s0 :: s1 :: rest2 =>
    if s0 = 91 ∧ s1 = 65 then some ARROW_UP
    else if s0 = 91 ∧ s1 = 66 then some ARROW_DOWN
    else if s0 = 91 ∧ s1 = 67 then some ARROW_RIGHT
    else if s0 = 91 ∧ s1 = 68 then some ARROW_LEFT
    else if (s0 = 91 ∨ s0 = 79) ∧ s1 = 72 then some HOME_KEY
    else if (s0 = 91 ∨ s0 = 79) ∧ s1 = 70 then some END_KEY
    else
      match rest2 with
      | s2 :: _ =>
        if s0 = 91 ∧ s2 = 126 then
          if s1 = 49 ∨ s1 = 55 then some HOME_KEY
          else if s1 = 51 then some DEL_KEY
          else if s1 = 52 ∨ s1 = 56 then some END_KEY
          else if s1 = 53 then some PAGE_UP
          else if s1 = 54 then some PAGE_DOWN
          else none
        else none
      | [] => none
  | _ => none

/-- The spec's whole decoder: a non-escape byte is itself; after an escape,
the table's key, or the literal Escape when the table has no entry. -/
def specDecode (c : Nat) (rest : List Nat) : Nat :=
  if c = 27 then (specKeyTable rest).getD 27 else c

theorem editorReadKey_eq_table (rest : List Nat) :
    editorReadKey 27 rest = (specKeyTable rest).getD 27 := by
  rcases rest with _ | ⟨s0, _ | ⟨s1, rest2⟩⟩
  · rfl
  · rfl
  by_cases h0 : s0 = 91
  · subst h0
    by_cases hd : 48 ≤ s1 ∧ s1 ≤ 57
    · obtain ⟨hd1, hd2⟩ := hd
      have h65 : s1 ≠ 65 := by omega
      have h66 : s1 ≠ 66 := by omega
      have h67 : s1 ≠ 67 := by omega
      have h68 : s1 ≠ 68 := by omega
      have h72 : s1 ≠ 72 := by omega
      have h70 : s1 ≠ 70 := by omega
      rcases rest2 with _ | ⟨s2, rest3⟩
      · simp [editorReadKey, specKeyTable, hd1, hd2, h65, h66, h67, h68, h72, h70]
      · by_cases h2 : s2 = 126
        · subst h2
          interval_cases s1 <;> rfl
        · simp [editorReadKey, specKeyTable, hd1, hd2, h2, h65, h66, h67, h68, h72, h70]
    · by_cases e65 : s1 = 65
      · subst e65; rfl
      by_cases e66 : s1 = 66
      · subst e66; rfl
      by_cases e67 : s1 = 67
      · subst e67; rfl
      by_cases e68 : s1 = 68
      · subst e68; rfl
      by_cases e72 : s1 = 72
      · subst e72; rfl
      by_cases e70 : s1 = 70
      · subst e70; rfl
      have h49 : s1 ≠ 49 := by omega
      have h51 : s1 ≠ 51 := by omega
      have h52 : s1 ≠ 52 := by omega
      have h53 : s1 ≠ 53 := by omega
      have h54 : s1 ≠ 54 := by omega
      have h55 : s1 ≠ 55 := by omega
      have h56 : s1 ≠ 56 := by omega
      rcases rest2 with _ | ⟨s2, rest3⟩
      · simp [editorReadKey, specKeyTable, hd, e65, e66, e67, e68, e72, e70]
      · simp [editorReadKey, specKeyTable, hd, e65, e66, e67, e68, e72, e70,
          h49, h51, h52, h53, h54, h55, h56]
  · by_cases h1 : s0 = 79
    · subst h1
      by_cases e72 : s1 = 72
      · subst e72; rfl
      by_cases e70 : s1 = 70
      · subst e70; rfl
      rcases rest2 with _ | ⟨s2, rest3⟩ <;>
        simp [editorReadKey, specKeyTable, e72, e70]
    · rcases rest2 with _ | ⟨s2, rest3⟩ <;>
        simp [editorReadKey, specKeyTable, h0, h1]

/-- Claim C3: the key decoder is total — it equals the spec's table-based
decoder on every byte stream, every escape-initiated combination outside
the table (or cut short by a read timeout) resolving to literal Escape;
in particular `ESC [ 5 ~` decodes to PageUp and `ESC [ Z` to Escape. -/
theorem editorReadKey_total :
    (∀ (c : Nat) (rest : List Nat), editorReadKey c rest = specDecode c rest) ∧
      editorReadKey 27 [91, 53, 126] = PAGE_UP ∧
      editorReadKey 27 [91, 90] = 27 := by
  refine ⟨?_, by decide, by decide⟩
  intro c rest
  by_cases hc : c = 27
  · subst hc
    rw [editorReadKey_eq_table, specDecode, if_pos rfl]
  · simp [editorReadKey, specDecode, hc]

/-! ## Search wrap-around: claim C4 -/

/-- A freshly loaded row: `editorInsertRow` stores the text and runs
`editorUpdateRow` on it (no active profile here). -/
def mkRow (s : String) : Erow :=
  editorUpdateRow none { chars := s.toList, render := [], hl := [] }

def findDemoConfig : EditorConfig :=
  { cx := 0, cy := 0, rx := 0, row_offset := 0, col_offset := 0, screen_rows := 20,
    screen_cols := 80, row := [mkRow "foo", mkRow "bar", mkRow "baz"], dirty := 0,
    esyn := none }

/-- The search session's state after typing the final `'a'` of the query
(the key that triggers the first forward scan), then two Arrow-Right steps. -/
def findStep1 : FindState × EditorConfig :=
  editorFindCallback "ba".toList 97 ⟨-1, 1, 0, none⟩ findDemoConfig

def findStep2 : FindState × EditorConfig :=
  editorFindCallback "ba".toList ARROW_RIGHT findStep1.1 findStep1.2

def findStep3 : FindState × EditorConfig :=
  editorFindCallback "ba".toList ARROW_RIGHT findStep2.1 findStep2.2

/-- Claim C4: forward incremental search over rows `["foo","bar","baz"]`
with query `"ba"`, starting with no prior match, finds row 1, then row 2,
then wraps around past the end and finds row 1 again, each step scanning
from `last_match + direction` and selecting the first row whose render
string contains the query. -/
theorem editorFind_wraps :
    findStep1.2.cy = 1 ∧ findStep1.1.last_match = 1 ∧ findStep1.2.cx = 0 ∧
      findStep2.2.cy = 2 ∧ findStep2.1.last_match = 2 ∧
      findStep3.2.cy = 1 ∧ findStep3.1.last_match = 1 := by
  decide

/-! ## List splice helpers for the row array -/

theorem take_at_len {α : Type} (l₁ l₂ : List α) : (l₁ ++ l₂).take l₁.length = l₁ := by
  induction l₁ with
  | nil => rfl
  | cons a t ih => simp [ih]

theorem drop_at_len {α : Type} (l₁ l₂ : List α) : (l₁ ++ l₂).drop l₁.length = l₂ := by
  induction l₁ with
  | nil => rfl
  | cons a t ih => simp [ih]

theorem take_at_len_succ {α : Type} (l₁ : List α) (x : α) (l₂ : List α) :
    (l₁ ++ x :: l₂).take (l₁.length + 1) = l₁ ++ [x] := by
  induction l₁ with
  | nil => rfl
  | cons a t ih => simp [ih]

theorem drop_at_len_succ {α : Type} (l₁ : List α) (x : α) (l₂ : List α) :
    (l₁ ++ x :: l₂).drop (l₁.length + 1) = l₂ := by
  induction l₁ with
  | nil => rfl
  | cons a t ih => simp [ih]

theorem drop_at_len_succ2 {α : Type} (l₁ : List α) (a x : α) (l₂ : List α) :
    (l₁ ++ a :: x :: l₂).drop (l₁.length + 2) = l₂ := by
  induction l₁ with
  | nil => rfl
  | cons b t ih => simpa using ih

theorem getD_at_len {α : Type} (l₁ : List α) (x : α) (l₂ : List α) (d : α) :
    (l₁ ++ x :: l₂).getD l₁.length d = x := by
  induction l₁ with
  | nil => rfl
  | cons a t ih => simpa using ih

theorem getD_at_len_succ {α : Type} (l₁ : List α) (x y : α) (l₂ : List α) (d : α) :
    (l₁ ++ x :: y :: l₂).getD (l₁.length + 1) d = y := by
  induction l₁ with
  | nil => rfl
  | cons a t ih => simpa using ih

theorem set_at_len {α : Type} (l₁ : List α) (x y : α) (l₂ : List α) :
    (l₁ ++ x :: l₂).set l₁.length y = l₁ ++ y :: l₂ := by
  induction l₁ with
  | nil => rfl
  | cons a t ih => simp [ih]

theorem take_at_len' {α : Type} (l₁ l₂ : List α) (n : Nat) (h : n = l₁.length) :
    (l₁ ++ l₂).take n = l₁ := by subst h; exact take_at_len l₁ l₂

theorem drop_at_len' {α : Type} (l₁ l₂ : List α) (n : Nat) (h : n = l₁.length) :
    (l₁ ++ l₂).drop n = l₂ := by subst h; exact drop_at_len l₁ l₂

theorem take_at_len_succ' {α : Type} (l₁ : List α) (x : α) (l₂ : List α) (n : Nat)
    (h : n = l₁.length + 1) : (l₁ ++ x :: l₂).take n = l₁ ++ [x] := by
  subst h; exact take_at_len_succ l₁ x l₂

theorem drop_at_len_succ' {α : Type} (l₁ : List α) (x : α) (l₂ : List α) (n : Nat)
    (h : n = l₁.length + 1) : (l₁ ++ x :: l₂).drop n = l₂ := by
  subst h; exact drop_at_len_succ l₁ x l₂

theorem drop_at_len_succ2' {α : Type} (l₁ : List α) (a x : α) (l₂ : List α) (n : Nat)
    (h : n = l₁.length + 2) : (l₁ ++ a :: x :: l₂).drop n = l₂ := by
  subst h; exact drop_at_len_succ2 l₁ a x l₂

theorem getD_at_len' {α : Type} (l₁ : List α) (x : α) (l₂ : List α) (d : α) (n : Nat)
    (h : n = l₁.length) : (l₁ ++ x :: l₂).getD n d = x := by
  subst h; exact getD_at_len l₁ x l₂ d

theorem getD_at_len_succ' {α : Type} (l₁ : List α) (x y : α) (l₂ : List α) (d : α) (n : Nat)
    (h : n = l₁.length + 1) : (l₁ ++ x :: y :: l₂).getD n d = y := by
  subst h; exact getD_at_len_succ l₁ x y l₂ d

theorem set_at_len' {α : Type} (l₁ : List α) (x y : α) (l₂ : List α) (n : Nat)
    (h : n = l₁.length) : (l₁ ++ x :: l₂).set n y = l₁ ++ y :: l₂ := by
  subst h; exact set_at_len l₁ x y l₂

theorem list_split_at {α : Type} [Inhabited α] (l : List α) (n : Nat) (h : n < l.length) :
    ∃ l₁ l₂, l = l₁ ++ l.getD n default :: l₂ ∧ l₁.length = n := by
  induction l generalizing n with
  | nil => simp at h
  | cons a t ih =>
    cases n with
    | zero => exact ⟨[], t, rfl, rfl⟩
    | succ m =>
      obtain ⟨l₁, l₂, he, hl⟩ := ih m (by simpa using h)
      refine ⟨a :: l₁, l₂, ?_, by simp [hl]⟩
      simpa using he

/-- `editorUpdateRow` keeps the raw bytes and derives the other two fields. -/
theorem editorUpdateRow_chars (syn : Option EditorSyntax) (r : Erow) :
    (editorUpdateRow syn r).chars = r.chars := rfl

theorem editorUpdateRow_render (syn : Option EditorSyntax) (r : Erow) :
    (editorUpdateRow syn r).render = renderChars r.chars := rfl

theorem editorUpdateRow_hl (syn : Option EditorSyntax) (r : Erow) :
    (editorUpdateRow syn r).hl = editorUpdateSyntax syn (renderChars r.chars) := rfl

/-! ## Newline split / backspace merge round trip: claim C6 -/

theorem editorDelRow_cy (a : Nat) (X : EditorConfig) : (editorDelRow a X).cy = X.cy := by
  simp only [editorDelRow]; split_ifs <;> rfl

theorem editorDelRow_cx (a : Nat) (X : EditorConfig) : (editorDelRow a X).cx = X.cx := by
  simp only [editorDelRow]; split_ifs <;> rfl

theorem editorDelRow_row (a : Nat) (X : EditorConfig) (h : a < X.row.length) :
    (editorDelRow a X).row = X.row.take a ++ X.row.drop (a + 1) := by
  simp only [editorDelRow]
  rw [if_neg (by omega)]

/-- `editorDelChar` at column 0 of row `l₁.length + 1` merges that row into
its predecessor: the predecessor keeps its bytes followed by the merged
row's bytes, the cursor lands at the join point. -/
theorem editorDelChar_merges (R : EditorConfig) (l₁ l₂ : List Erow) (A B : Erow)
    (hrow : R.row = l₁ ++ A :: B :: l₂) (hcy : R.cy = l₁.length + 1) (hcx : R.cx = 0) :
    (editorDelChar R).row.map Erow.chars =
        l₁.map Erow.chars ++ (A.chars ++ B.chars) :: l₂.map Erow.chars ∧
      (editorDelChar R).cx = A.chars.length ∧
      (editorDelChar R).cy = l₁.length := by
  have hlen : R.row.length = l₁.length + l₂.length + 2 := by rw [hrow]; simp; omega
  have hc1 : ¬(R.cy = R.row.length) := by omega
  have hc2 : ¬(R.cx = 0 ∧ R.cy = 0) := by rw [hcx, hcy]; simp
  have hc3 : ¬(R.cx > 0) := by omega
  have hprev : R.row.getD (R.cy - 1) default = A := by
    rw [hrow]; exact getD_at_len' l₁ A (B :: l₂) default (R.cy - 1) (by omega)
  have hr : R.row.getD R.cy default = B := by
    rw [hrow]; exact getD_at_len_succ' l₁ A B l₂ default R.cy hcy
  have ha'c : (editorRowAppendString R.esyn (R.row.getD (R.cy - 1) default)
      (R.row.getD R.cy default).chars).chars = A.chars ++ B.chars := by
    rw [hprev, hr]; rfl
  have hsetrow : R.row.set (R.cy - 1) (editorRowAppendString R.esyn
        (R.row.getD (R.cy - 1) default) (R.row.getD R.cy default).chars) =
      l₁ ++ editorRowAppendString R.esyn (R.row.getD (R.cy - 1) default)
        (R.row.getD R.cy default).chars :: B :: l₂ := by
    nth_rewrite 1 [hrow]
    exact set_at_len' l₁ A _ (B :: l₂) (R.cy - 1) (by omega)
  simp only [editorDelChar, hc1, hc2, hc3, if_false, ite_false]
  refine ⟨?_, ?_, ?_⟩
  · rw [editorDelRow_row _ _ (by simp only [List.length_set]; omega)]
    rw [hsetrow]
    rw [take_at_len_succ' l₁ _ (B :: l₂) R.cy hcy,
      drop_at_len_succ2' l₁ _ B l₂ (R.cy + 1) (by omega)]
    simp only [List.map_append, List.map_cons, List.map_nil, ha'c]
    simp
  · rw [editorDelRow_cx]
    show (R.row.getD (R.cy - 1) default).chars.length = A.chars.length
    rw [hprev]
  · show R.cy - 1 = l₁.length
    omega

theorem editorInsertRow_esyn (a : Nat) (s : List Char) (E : EditorConfig) :
    (editorInsertRow a s E).esyn = E.esyn := by
  simp only [editorInsertRow]; split_ifs <;> rfl

theorem editorInsertRow_cy (a : Nat) (s : List Char) (E : EditorConfig) :
    (editorInsertRow a s E).cy = E.cy := by
  simp only [editorInsertRow]; split_ifs <;> rfl

theorem editorInsertRow_cx (a : Nat) (s : List Char) (E : EditorConfig) :
    (editorInsertRow a s E).cx = E.cx := by
  simp only [editorInsertRow]; split_ifs <;> rfl

theorem editorInsertRow_row (a : Nat) (s : List Char) (E : EditorConfig)
    (h : a ≤ E.row.length) :
    (editorInsertRow a s E).row =
      E.row.take a ++ editorUpdateRow E.esyn { chars := s, render := [], hl := [] } ::
        E.row.drop a := by
  simp only [editorInsertRow]
  rw [if_neg (by omega)]

theorem editorInsertRow_length (a : Nat) (s : List Char) (E : EditorConfig)
    (h : a ≤ E.row.length) :
    (editorInsertRow a s E).row.length = E.row.length + 1 := by
  rw [editorInsertRow_row a s E h]
  simp only [List.length_append, List.length_take, List.length_cons, List.length_drop]
  omega

/-- Claim C6: splitting a row at `cx` with `editorInsertNewline` and then
deleting at column 0 of the produced next row with `editorDelChar` restores
the original row sequence's raw bytes, the split row included, and returns
the cursor to `(cy, cx)`. -/
theorem editorInsertNewline_editorDelChar (E : EditorConfig)
    (hcy : E.cy < E.row.length)
    (hcx : E.cx ≤ (E.row.getD E.cy default).chars.length) :
    (editorDelChar (editorInsertNewline E)).row.map Erow.chars = E.row.map Erow.chars ∧
      (editorDelChar (editorInsertNewline E)).cx = E.cx ∧
      (editorDelChar (editorInsertNewline E)).cy = E.cy := by
  obtain ⟨l₁, l₂, hsplit, hlen⟩ := list_split_at E.row E.cy hcy
  have ht : E.row.take E.cy = l₁ := by
    conv_lhs => rw [hsplit]
    exact take_at_len' l₁ _ E.cy hlen.symm
  have hd : E.row.drop E.cy = E.row.getD E.cy default :: l₂ := by
    conv_lhs => rw [hsplit]
    exact drop_at_len' l₁ _ E.cy hlen.symm
  have ht1 : E.row.take (E.cy + 1) = l₁ ++ [E.row.getD E.cy default] := by
    conv_lhs => rw [hsplit]
    exact take_at_len_succ' l₁ _ l₂ (E.cy + 1) (by omega)
  have hd1 : E.row.drop (E.cy + 1) = l₂ := by
    conv_lhs => rw [hsplit]
    exact drop_at_len_succ' l₁ _ l₂ (E.cy + 1) (by omega)
  by_cases h0 : E.cx = 0
  · -- `cx == 0`: an empty row is inserted before the current one
    have hR_row : (editorInsertNewline E).row =
        l₁ ++ editorUpdateRow E.esyn { chars := [], render := [], hl := [] } ::
          E.row.getD E.cy default :: l₂ := by
      simp only [editorInsertNewline, h0, if_pos]
      rw [editorInsertRow_row E.cy [] E (by omega), ht, hd]
    have hR_cy : (editorInsertNewline E).cy = l₁.length + 1 := by
      simp only [editorInsertNewline, h0, if_pos]
      rw [editorInsertRow_cy, hlen]
    have hR_cx : (editorInsertNewline E).cx = 0 := by
      simp only [editorInsertNewline, h0, if_pos]
    obtain ⟨hm1, hm2, hm3⟩ := editorDelChar_merges (editorInsertNewline E) l₁ l₂
      (editorUpdateRow E.esyn { chars := [], render := [], hl := [] })
      (E.row.getD E.cy default) hR_row hR_cy hR_cx
    refine ⟨?_, ?_, ?_⟩
    · rw [hm1]
      conv_rhs => rw [hsplit]
      simp [editorUpdateRow_chars]
    · rw [hm2, h0]
      rfl
    · rw [hm3, hlen]
  · -- `cx > 0`: the row is split at `cx`
    have hE1row : (editorInsertRow (E.cy + 1) ((E.row.getD E.cy default).chars.drop E.cx) E).row =
        l₁ ++ E.row.getD E.cy default ::
          editorUpdateRow E.esyn
            { chars := (E.row.getD E.cy default).chars.drop E.cx, render := [], hl := [] } ::
          l₂ := by
      rw [editorInsertRow_row _ _ E (by omega), ht1, hd1]
      simp
    have hR_row : (editorInsertNewline E).row =
        l₁ ++ editorUpdateRow E.esyn
            { E.row.getD E.cy default with chars := (E.row.getD E.cy default).chars.take E.cx } ::
          editorUpdateRow E.esyn
            { chars := (E.row.getD E.cy default).chars.drop E.cx, render := [], hl := [] } ::
          l₂ := by
      simp only [editorInsertNewline, h0, if_false, ite_false]
      rw [editorInsertRow_esyn, editorInsertRow_cy, hE1row]
      exact set_at_len' l₁ _ _ _ E.cy hlen.symm
    have hR_cy : (editorInsertNewline E).cy = l₁.length + 1 := by
      simp only [editorInsertNewline, h0, if_false, ite_false]
      rw [editorInsertRow_cy, hlen]
    have hR_cx : (editorInsertNewline E).cx = 0 := by
      simp only [editorInsertNewline, h0, if_false, ite_false]
    obtain ⟨hm1, hm2, hm3⟩ := editorDelChar_merges (editorInsertNewline E) l₁ l₂
      (editorUpdateRow E.esyn
        { E.row.getD E.cy default with chars := (E.row.getD E.cy default).chars.take E.cx })
      (editorUpdateRow E.esyn
        { chars := (E.row.getD E.cy default).chars.drop E.cx, render := [], hl := [] })
      hR_row hR_cy hR_cx
    refine ⟨?_, ?_, ?_⟩
    · rw [hm1]
      conv_rhs => rw [hsplit]
      simp [editorUpdateRow_chars]
    · rw [hm2]
      simp only [editorUpdateRow_chars, List.length_take]
      omega
    · rw [hm3, hlen]

def splitDemoState : EditorConfig :=
  { wrapDemoA with cy := 0, cx := 1 }

theorem editorInsertNewline_editorDelChar_witness :
    (editorDelChar (editorInsertNewline splitDemoState)).row.map Erow.chars =
        splitDemoState.row.map Erow.chars ∧
      (editorDelChar (editorInsertNewline splitDemoState)).cx = 1 ∧
      (editorDelChar (editorInsertNewline splitDemoState)).cy = 0 :=
  editorInsertNewline_editorDelChar splitDemoState (by decide) (by decide)

/-! ## The highlight-length invariant: claim C2 -/

/-- One highlight byte per render byte (`len(row.hl) == row.rsize`). -/
abbrev rowHlOk (r : Erow) : Prop := r.hl.length = r.render.length

/-- Every row of the document satisfies the highlight-length invariant. -/
abbrev docHlOk (E : EditorConfig) : Prop := ∀ r ∈ E.row, rowHlOk r

/-- The search callback's static snapshot matches the saved row's render
length (what `malloc(row->rsize)` + `memcpy` guarantee in the source). -/
def findStateOk (st : FindState) (E : EditorConfig) : Prop :=
  ∀ saved, st.saved_hl = some saved →
    saved.length = (E.row.getD st.saved_hl_line default).render.length

theorem rowHlOk_default : rowHlOk default := rfl

theorem getD_mem_of_lt {α : Type} [Inhabited α] (l : List α) (i : Nat) (d : α)
    (h : i < l.length) : l.getD i d ∈ l := by
  induction l generalizing i with
  | nil => simp at h
  | cons a t ih =>
    cases i with
    | zero => exact List.mem_cons_self a t
    | succ m =>
      have := ih m (by simpa using h)
      simpa using Or.inr this

theorem getD_eq_default_of_le {α : Type} (l : List α) (d : α) (i : Nat)
    (h : l.length ≤ i) : l.getD i d = d := by
  induction l generalizing i with
  | nil => rfl
  | cons a t ih =>
    cases i with
    | zero => simp at h
    | succ m => simpa using ih m (by simpa using h)

theorem editorUpdateRow_rowHlOk (syn : Option EditorSyntax) (r : Erow) :
    rowHlOk (editorUpdateRow syn r) := by
  show (editorUpdateRow syn r).hl.length = (editorUpdateRow syn r).render.length
  rw [editorUpdateRow_hl, editorUpdateRow_render, editorUpdateSyntax_length]

theorem getD_rowsHlOk (rows : List Erow) (h : ∀ r ∈ rows, rowHlOk r) (i : Nat) :
    rowHlOk (rows.getD i default) := by
  by_cases hi : i < rows.length
  · exact h _ (getD_mem_of_lt rows i default hi)
  · rw [getD_eq_default_of_le rows default i (by omega)]
    exact rowHlOk_default

theorem rowsHlOk_set (rows : List Erow) (i : Nat) (r2 : Erow)
    (h : ∀ r ∈ rows, rowHlOk r) (h2 : rowHlOk r2) : ∀ r ∈ rows.set i r2, rowHlOk r := by
  intro r hr
  rcases List.mem_or_eq_of_mem_set hr with h1 | h1
  · exact h r h1
  · rw [h1]; exact h2

theorem docHlOk_insertRow (a : Nat) (s : List Char) (E : EditorConfig) (h : docHlOk E) :
    docHlOk (editorInsertRow a s E) := by
  intro r hr
  simp only [editorInsertRow] at hr
  split_ifs at hr
  · exact h r hr
  · rcases List.mem_append.mp hr with h1 | h1
    · exact h r (List.take_subset a E.row h1)
    · rcases List.mem_cons.mp h1 with h2 | h2
      · rw [h2]; exact editorUpdateRow_rowHlOk _ _
      · exact h r (List.drop_subset a E.row h2)

theorem docHlOk_delRow (a : Nat) (E : EditorConfig) (h : docHlOk E) :
    docHlOk (editorDelRow a E) := by
  intro r hr
  simp only [editorDelRow] at hr
  split_ifs at hr
  · exact h r hr
  · rcases List.mem_append.mp hr with h1 | h1
    · exact h r (List.take_subset a E.row h1)
    · exact h r (List.drop_subset (a + 1) E.row h1)

theorem docHlOk_insertChar (c : Char) (E : EditorConfig) (h : docHlOk E) :
    docHlOk (editorInsertChar c E) := by
  intro r hr
  have hr' : r ∈ (if E.cy = E.row.length then editorInsertRow E.row.length [] E else E).row.set
      (if E.cy = E.row.length then editorInsertRow E.row.length [] E else E).cy
      (editorRowInsertChar
        (if E.cy = E.row.length then editorInsertRow E.row.length [] E else E).esyn
        ((if E.cy = E.row.length then editorInsertRow E.row.length [] E else E).row.getD
          (if E.cy = E.row.length then editorInsertRow E.row.length [] E else E).cy default)
        (if E.cy = E.row.length then editorInsertRow E.row.length [] E else E).cx c) := hr
  have hbase : docHlOk (if E.cy = E.row.length then editorInsertRow E.row.length [] E else E) := by
    split_ifs
    · exact docHlOk_insertRow _ _ E h
    · exact h
  exact rowsHlOk_set _ _ _ hbase (editorUpdateRow_rowHlOk _ _) r hr'

theorem editorRowDelChar_rowHlOk (syn : Option EditorSyntax) (r : Erow) (a : Nat)
    (h : rowHlOk r) : rowHlOk (editorRowDelChar syn r a) := by
  simp only [editorRowDelChar]
  split_ifs
  · exact h
  · exact editorUpdateRow_rowHlOk _ _

theorem docHlOk_delChar (E : EditorConfig) (h : docHlOk E) :
    docHlOk (editorDelChar E) := by
  simp only [editorDelChar]
  split_ifs with h1 h2 h3
  · exact h
  · exact h
  · intro r hr
    exact rowsHlOk_set _ _ _ h
      (editorRowDelChar_rowHlOk _ _ _ (getD_rowsHlOk E.row h _)) r hr
  · intro r hr
    have hmid : ∀ r' ∈ E.row.set (E.cy - 1) (editorRowAppendString E.esyn
        (E.row.getD (E.cy - 1) default) (E.row.getD E.cy default).chars), rowHlOk r' :=
      rowsHlOk_set _ _ _ h (editorUpdateRow_rowHlOk _ _)
    simp only [editorDelRow] at hr
    split_ifs at hr
    · exact hmid r hr
    · rcases List.mem_append.mp hr with hm | hm
      · exact hmid r (List.take_subset _ _ hm)
      · exact hmid r (List.drop_subset _ _ hm)

theorem docHlOk_insertNewline (E : EditorConfig) (h : docHlOk E) :
    docHlOk (editorInsertNewline E) := by
  simp only [editorInsertNewline]
  split_ifs with h1
  · intro r hr
    exact docHlOk_insertRow E.cy [] E h r hr
  · intro r hr
    have h2 := docHlOk_insertRow (E.cy + 1)
      ((E.row.getD E.cy default).chars.drop E.cx) E h
    exact rowsHlOk_set _ _ _ h2 (editorUpdateRow_rowHlOk _ _) r hr

theorem docHlOk_selectSyntax (syn : Option EditorSyntax) (E : EditorConfig) (h : docHlOk E) :
    docHlOk (editorSelectSyntaxHighlight syn E) := by
  cases syn with
  | none => exact h
  | some s =>
    intro r hr
    simp only [editorSelectSyntaxHighlight, List.mem_map] at hr
    obtain ⟨r', _, hr'⟩ := hr
    rw [← hr']
    show (editorUpdateSyntax (some s) r'.render).length = r'.render.length
    exact editorUpdateSyntax_length _ _

theorem strstrIdx_le (hay needle : List Char) :
    ∀ off, strstrIdx hay needle = some off → off + needle.length ≤ hay.length := by
  induction hay with
  | nil =>
    intro off h
    simp only [strstrIdx] at h
    split_ifs at h with hp
    · have hnil : needle = [] := by
        have := List.isPrefixOf_iff_prefix.mp hp
        simpa using this
      have : off = 0 := by simpa using h.symm
      simp [hnil, this]
  | cons c t ih =>
    intro off h
    simp only [strstrIdx] at h
    split_ifs at h with hp
    · have h0 : off = 0 := by simpa using h.symm
      subst h0
      have := (List.isPrefixOf_iff_prefix.mp hp).length_le
      simpa using this
    · rcases hs : strstrIdx t needle with _ | k
      · rw [hs] at h
        exact absurd h (by simp)
      · rw [hs] at h
        simp only [Option.map_some'] at h
        have hk := ih k hs
        have hko : k + 1 = off := by simpa using h
        simp only [List.length_cons]
        omega

theorem searchLoop_render_match (rows : List Erow) (query : List Char) (dir : Int) :
    ∀ (n : Nat) (cur : Int) (idx off : Nat),
      searchLoop rows query dir n cur = some (idx, off) →
      strstrIdx (rows.getD idx default).render query = some off := by
  intro n
  induction n with
  | zero => intro cur idx off h; simp [searchLoop] at h
  | succ n ih =>
    intro cur idx off h
    simp only [searchLoop] at h
    rcases hs : strstrIdx ((rows.getD (if cur + dir = -1 then (rows.length : Int) - 1
        else if cur + dir = (rows.length : Int) then 0 else cur + dir).toNat
        default).render) query with _ | k
    · rw [hs] at h
      exact ih _ idx off h
    · rw [hs] at h
      simp only [Option.some.injEq, Prod.mk.injEq] at h
      rw [← h.1, ← h.2]
      exact hs

theorem memsetRange_length (hl : List Nat) (off len v : Nat) (h : off + len ≤ hl.length) :
    (memsetRange hl off len v).length = hl.length := by
  simp only [memsetRange, List.length_append, List.length_take, List.length_replicate,
    List.length_drop]
  omega

theorem getD_set_self {α : Type} (l : List α) (n : Nat) (a d : α) (h : n < l.length) :
    (l.set n a).getD n d = a := by
  induction l generalizing n with
  | nil => simp at h
  | cons b t ih =>
    cases n with
    | zero => rfl
    | succ m => simpa using ih m (by simpa using h)

/-- A successful scan step keeps both invariants: the `HL_MATCH` overlay
writes inside the row's highlight array, and the snapshot it saves matches
the row's render length. -/
theorem findScan_some_ok (q : List Char) (E0 : EditorConfig) (hdoc : docHlOk E0)
    (dir : Int) (n : Nat) (cur : Int) (idx off : Nat)
    (heq : searchLoop E0.row q dir n cur = some (idx, off)) :
    (∀ r ∈ E0.row.set idx { E0.row.getD idx default with
        hl := memsetRange (E0.row.getD idx default).hl off q.length HL_MATCH }, rowHlOk r) ∧
      (E0.row.getD idx default).hl.length =
        ((E0.row.set idx { E0.row.getD idx default with
          hl := memsetRange (E0.row.getD idx default).hl off q.length HL_MATCH }).getD idx
            default).render.length := by
  have hmatch := searchLoop_render_match E0.row q dir n cur idx off heq
  have hle := strstrIdx_le _ q off hmatch
  have hrOk : (E0.row.getD idx default).hl.length =
      (E0.row.getD idx default).render.length := getD_rowsHlOk E0.row hdoc idx
  have hlenOK : off + q.length ≤ (E0.row.getD idx default).hl.length := by omega
  constructor
  · refine rowsHlOk_set _ _ _ hdoc ?_
    show (memsetRange (E0.row.getD idx default).hl off q.length HL_MATCH).length =
      (E0.row.getD idx default).render.length
    rw [memsetRange_length _ _ _ _ hlenOK]
    exact hrOk
  · by_cases hidx : idx < E0.row.length
    · rw [getD_set_self _ _ _ _ hidx]
      exact hrOk
    · rw [getD_eq_default_of_le E0.row default idx (by omega)]
      rw [getD_eq_default_of_le _ _ _ (by rw [List.length_set]; omega)]
      rfl

/-- The scan-and-overlay half of the callback (everything after the
restore) keeps both invariants, for any restored document. -/
theorem findScan_ok (q : List Char) (key : Nat) (st0 : FindState) (E0 : EditorConfig)
    (hdoc : docHlOk E0) :
    docHlOk (editorFindCallback q key { st0 with saved_hl := none } E0).2 ∧
      findStateOk (editorFindCallback q key { st0 with saved_hl := none } E0).1
        (editorFindCallback q key { st0 with saved_hl := none } E0).2 := by
  simp only [editorFindCallback]
  split_ifs with hk
  · exact ⟨hdoc, fun s hs => Option.noConfusion hs⟩
  all_goals (split <;> try exact ⟨hdoc, fun s hs => Option.noConfusion hs⟩)
  all_goals (
    rename_i idx off heq
    exact ⟨fun r hr => (findScan_some_ok q E0 hdoc _ _ _ idx off heq).1 r hr,
      fun s hs => by
        injection hs with h2
        rw [← h2]
        exact (findScan_some_ok q E0 hdoc _ _ _ idx off heq).2⟩)

/-- Claim C2: after every operation that changes a row's content or re-runs
highlighting — row insertion, character insert, backspace/delete (row
delete and merge included), newline split, syntax-profile selection, and
the search callback's `HL_MATCH` overlay and its restore — every row holds
exactly one highlight byte per render byte (`len(hl) == rsize`), and the
search callback's highlight snapshot always matches its row's render
length. -/
theorem highlight_length_invariant :
    (∀ (syn : Option EditorSyntax) (r : Erow), rowHlOk (editorUpdateRow syn r)) ∧
      (∀ (a : Nat) (s : List Char) (E : EditorConfig), docHlOk E →
        docHlOk (editorInsertRow a s E)) ∧
      (∀ (c : Char) (E : EditorConfig), docHlOk E → docHlOk (editorInsertChar c E)) ∧
      (∀ E : EditorConfig, docHlOk E → docHlOk (editorDelChar E)) ∧
      (∀ E : EditorConfig, docHlOk E → docHlOk (editorInsertNewline E)) ∧
      (∀ (syn : Option EditorSyntax) (E : EditorConfig), docHlOk E →
        docHlOk (editorSelectSyntaxHighlight syn E)) ∧
      (∀ (q : List Char) (key : Nat) (st : FindState) (E : EditorConfig),
        docHlOk E → findStateOk st E →
        docHlOk (editorFindCallback q key st E).2 ∧
          findStateOk (editorFindCallback q key st E).1 (editorFindCallback q key st E).2) := by
  refine ⟨editorUpdateRow_rowHlOk, docHlOk_insertRow, docHlOk_insertChar, docHlOk_delChar,
    docHlOk_insertNewline, docHlOk_selectSyntax, ?_⟩
  intro q key st E hdoc hst
  obtain ⟨lm, dirn, line, sv⟩ := st
  rcases sv with _ | saved
  · exact findScan_ok q key ⟨lm, dirn, line, none⟩ E hdoc
  · have hr1 : rowHlOk { E.row.getD line default with hl := saved } := hst saved rfl
    exact findScan_ok q key ⟨lm, dirn, line, none⟩ { E with row := E.row.set line { E.row.getD line default with hl := saved } } (fun r hr => rowsHlOk_set _ _ _ hdoc hr1 r hr)

/-! ## The cursor-bounds invariant: claim C7 -/

/-- The length of row `i`, or 0 on the virtual row past EOF. -/
abbrev rowLen (E : EditorConfig) (i : Nat) : Nat :=
  if i < E.row.length then (E.row.getD i default).chars.length else 0

/-- The cursor-bounds invariant: `cy ≤ num_rows`, and `cx` at most the
current row's length (0 on the virtual row). -/
abbrev cursorOk (E : EditorConfig) : Prop :=
  E.cy ≤ E.row.length ∧ E.cx ≤ rowLen E E.cy

/-- `editorFindCallback`'s static `last_match` is `-1` or a valid row. -/
abbrev findLmOk (st : FindState) (E : EditorConfig) : Prop :=
  -1 ≤ st.last_match ∧ st.last_match < (E.row.length : Int)

/-- The trailing clamp of `editorMoveCursor` restores the invariant from
any in-range `cy`. -/
theorem editorMoveCursorStep_row (key : Nat) (E : EditorConfig) :
    (editorMoveCursorStep key E).row = E.row := by
  simp only [editorMoveCursorStep]
  split_ifs <;> rfl

theorem editorMoveCursorStep_cy (key : Nat) (E : EditorConfig)
    (h : E.cy ≤ E.row.length) : (editorMoveCursorStep key E).cy ≤ E.row.length := by
  simp only [editorMoveCursorStep]
  split_ifs <;> (try simp_all) <;> omega

/-- The trailing clamp of `editorMoveCursor` restores the invariant from
any in-range `cy`. -/
theorem editorMoveCursor_cursorOk (key : Nat) (E : EditorConfig)
    (h : E.cy ≤ E.row.length) : cursorOk (editorMoveCursor key E) := by
  have h1 := editorMoveCursorStep_cy key E h
  have h2 := editorMoveCursorStep_row key E
  simp only [editorMoveCursor, cursorOk, rowLen]
  split_ifs <;> (try simp_all) <;> omega

theorem iterate_moveCursor_cursorOk (key : Nat) :
    ∀ (n : Nat), 1 ≤ n → ∀ E : EditorConfig, E.cy ≤ E.row.length →
      cursorOk ((editorMoveCursor key)^[n] E) := by
  intro n
  induction n with
  | zero => omega
  | succ n ih =>
    intro _ E hE
    rw [Function.iterate_succ_apply]
    rcases Nat.eq_zero_or_pos n with h0 | h0
    · subst h0
      simpa using editorMoveCursor_cursorOk key E hE
    · exact ih h0 _ (editorMoveCursor_cursorOk key E hE).1

theorem editorRowInsertChar_length (syn : Option EditorSyntax) (r : Erow) (a : Nat) (c : Char) :
    (editorRowInsertChar syn r a c).chars.length = r.chars.length + 1 := by
  simp only [editorRowInsertChar, editorUpdateRow_chars]
  split_ifs with h <;>
    simp only [List.length_append, List.length_take, List.length_cons, List.length_drop] <;>
    omega

theorem cursorOk_set_plus_one (E1 : EditorConfig) (v : Erow)
    (hcy : E1.cy < E1.row.length)
    (hv : (E1.row.getD E1.cy default).chars.length + 1 = v.chars.length)
    (hcx : E1.cx ≤ (E1.row.getD E1.cy default).chars.length) :
    cursorOk { E1 with row := E1.row.set E1.cy v, cx := E1.cx + 1, dirty := E1.dirty + 1 } := by
  constructor
  · show E1.cy ≤ (E1.row.set E1.cy v).length
    rw [List.length_set]
    omega
  · show E1.cx + 1 ≤ rowLen _ E1.cy
    simp only [rowLen, List.length_set]
    rw [if_pos hcy, getD_set_self _ _ _ _ hcy]
    omega

theorem editorInsertChar_cursorOk (c : Char) (E : EditorConfig) (h : cursorOk E) :
    cursorOk (editorInsertChar c E) := by
  obtain ⟨h1, h2⟩ := h
  by_cases hcy : E.cy = E.row.length
  · have hcx0 : E.cx = 0 := by
      simp only [rowLen] at h2
      rw [if_neg (by omega)] at h2
      omega
    simp only [editorInsertChar, if_pos hcy]
    refine cursorOk_set_plus_one _ _ ?_ ?_ ?_
    · rw [editorInsertRow_cy, editorInsertRow_length _ _ _ (le_refl _)]
      omega
    · exact (editorRowInsertChar_length _ _ _ _).symm
    · rw [editorInsertRow_cx, hcx0]
      exact Nat.zero_le _
  · simp only [editorInsertChar, if_neg hcy]
    refine cursorOk_set_plus_one _ _ (by omega) (editorRowInsertChar_length _ _ _ _).symm ?_
    simp only [rowLen] at h2
    rw [if_pos (by omega)] at h2
    exact h2

theorem editorInsertNewline_cursorOk (E : EditorConfig) (h : cursorOk E) :
    cursorOk (editorInsertNewline E) := by
  obtain ⟨h1, h2⟩ := h
  by_cases h0 : E.cx = 0
  · simp only [editorInsertNewline, if_pos h0]
    constructor
    · show (editorInsertRow E.cy [] E).cy + 1 ≤ (editorInsertRow E.cy [] E).row.length
      rw [editorInsertRow_cy, editorInsertRow_length _ _ _ h1]
      omega
    · exact Nat.zero_le _
  · have hcy : E.cy < E.row.length := by
      by_contra hc
      simp only [rowLen] at h2
      rw [if_neg hc] at h2
      omega
    simp only [editorInsertNewline, if_neg h0]
    constructor
    · show (editorInsertRow (E.cy + 1) ((E.row.getD E.cy default).chars.drop E.cx) E).cy + 1 ≤
        ((editorInsertRow (E.cy + 1) ((E.row.getD E.cy default).chars.drop E.cx) E).row.set
          (editorInsertRow (E.cy + 1) ((E.row.getD E.cy default).chars.drop E.cx) E).cy _).length
      rw [List.length_set, editorInsertRow_cy, editorInsertRow_length _ _ _ (by omega)]
      omega
    · exact Nat.zero_le _

theorem editorRowDelChar_length_ge (syn : Option EditorSyntax) (r : Erow) (a : Nat) :
    r.chars.length - 1 ≤ (editorRowDelChar syn r a).chars.length := by
  simp only [editorRowDelChar]
  split_ifs with hc
  · omega
  · simp only [editorUpdateRow_chars, List.length_append, List.length_take, List.length_drop]
    omega

theorem map_getD {α β : Type} (f : α → β) (l : List α) (i : Nat) (d : α) :
    (l.map f).getD i (f d) = f (l.getD i d) := by
  induction l generalizing i with
  | nil => rfl
  | cons a t ih =>
    cases i with
    | zero => rfl
    | succ m => simpa using ih m

theorem getD_set_ne {α : Type} (l : List α) (n m : Nat) (a d : α) (h : m ≠ n) :
    (l.set n a).getD m d = l.getD m d := by
  induction l generalizing n m with
  | nil => rfl
  | cons b t ih =>
    cases n with
    | zero =>
      cases m with
      | zero => omega
      | succ k => rfl
    | succ n' =>
      cases m with
      | zero => rfl
      | succ k => simpa using ih n' k (by omega)

theorem editorDelChar_cursorOk (E : EditorConfig) (h : cursorOk E) :
    cursorOk (editorDelChar E) := by
  obtain ⟨h1, h2⟩ := h
  by_cases hc1 : E.cy = E.row.length
  · simp only [editorDelChar, if_pos hc1]
    exact ⟨h1, h2⟩
  by_cases hc2 : E.cx = 0 ∧ E.cy = 0
  · simp only [editorDelChar, if_neg hc1, if_pos hc2]
    exact ⟨h1, h2⟩
  by_cases hc3 : E.cx > 0
  · -- delete to the left inside the row
    have hcy : E.cy < E.row.length := by omega
    have hcx : E.cx ≤ (E.row.getD E.cy default).chars.length := by
      simp only [rowLen] at h2
      rwa [if_pos hcy] at h2
    simp only [editorDelChar, if_neg hc1, if_neg hc2, if_pos hc3]
    constructor
    · show E.cy ≤ (E.row.set E.cy _).length
      rw [List.length_set]
      omega
    · show E.cx - 1 ≤ rowLen _ E.cy
      simp only [rowLen, List.length_set]
      rw [if_pos hcy, getD_set_self _ _ _ _ hcy]
      have := editorRowDelChar_length_ge E.esyn (E.row.getD E.cy default) (E.cx - 1)
      omega
  · -- merge into the previous row
    have hcy : E.cy < E.row.length := by omega
    have hcy0 : 0 < E.cy := by
      rcases Nat.eq_zero_or_pos E.cy with hz | hp
      · exact absurd ⟨by omega, hz⟩ hc2
      · exact hp
    obtain ⟨l₁, l₂0, hsp, hl⟩ := list_split_at E.row (E.cy - 1) (by omega)
    rcases l₂0 with _ | ⟨B, l₂⟩
    · exfalso
      have := congrArg List.length hsp
      simp only [List.length_append, List.length_cons, List.length_nil] at this
      omega
    obtain ⟨hm1, hm2, hm3⟩ := editorDelChar_merges E l₁ l₂ _ B hsp (by omega) (by omega)
    have h' := congrArg List.length hm1
    simp only [List.length_map, List.length_append, List.length_cons] at h'
    constructor
    · rw [hm3]
      omega
    · rw [hm2, hm3]
      simp only [rowLen]
      rw [if_pos (by omega)]
      have hgD : ((editorDelChar E).row.getD l₁.length default).chars =
          (E.row.getD (E.cy - 1) default).chars ++ B.chars := by
        have hmg := map_getD Erow.chars (editorDelChar E).row l₁.length default
        rw [hm1] at hmg
        rw [getD_at_len' (l₁.map Erow.chars) _ _ (Erow.chars default) l₁.length
          (by simp)] at hmg
        exact hmg.symm
      rw [hgD]
      simp

theorem searchLoop_idx_lt (rows : List Erow) (q : List Char) (dir : Int)
    (hd : dir = 1 ∨ dir = -1) :
    ∀ (n : Nat), n ≤ rows.length → ∀ (cur : Int), -1 ≤ cur → cur < (rows.length : Int) →
      (cur = -1 → dir = 1) → ∀ (idx off : Nat),
        searchLoop rows q dir n cur = some (idx, off) → idx < rows.length := by
  intro n
  induction n with
  | zero => intro _ cur _ _ _ idx off h; simp [searchLoop] at h
  | succ n ih =>
    intro hn cur hc1 hc2 hc3 idx off h
    simp only [searchLoop] at h
    have hb : 0 ≤ (if cur + dir = -1 then (rows.length : Int) - 1
        else if cur + dir = (rows.length : Int) then 0 else cur + dir) ∧
        (if cur + dir = -1 then (rows.length : Int) - 1
        else if cur + dir = (rows.length : Int) then 0 else cur + dir) < (rows.length : Int) := by
      by_cases hcm : cur = -1
      · have hd1 : dir = 1 := hc3 hcm
        rw [hcm, hd1]
        split_ifs <;> omega
      · rcases hd with hd | hd <;> rw [hd] <;> split_ifs <;> omega
    rcases hs : strstrIdx ((rows.getD (if cur + dir = -1 then (rows.length : Int) - 1
        else if cur + dir = (rows.length : Int) then 0 else cur + dir).toNat
        default).render) q with _ | k
    · rw [hs] at h
      refine ih (by omega) (if cur + dir = -1 then (rows.length : Int) - 1
        else if cur + dir = (rows.length : Int) then 0 else cur + dir)
        (by omega) hb.2 (fun hx => by omega) idx off h
    · rw [hs] at h
      simp only [Option.some.injEq, Prod.mk.injEq] at h
      omega

theorem rowLen_set_hl (E : EditorConfig) (line : Nat) (hl1 : List Nat) (i : Nat) :
    rowLen { E with row := E.row.set line { E.row.getD line default with hl := hl1 } } i =
      rowLen E i := by
  simp only [rowLen, List.length_set]
  split_ifs with hi
  · by_cases hli : i = line
    · subst hli
      rw [getD_set_self _ _ _ _ hi]
    · rw [getD_set_ne _ _ _ _ _ hli]
  · rfl

/-- The scan-and-move half of the callback keeps the cursor in bounds and
the recorded `last_match` a valid row index (or the -1 sentinel), for any
restored document. -/
theorem findScan_cursorOk (q : List Char) (key : Nat) (st0 : FindState) (E0 : EditorConfig)
    (h1 : E0.cy ≤ E0.row.length) (h2 : E0.cx ≤ rowLen E0 E0.cy)
    (hlm1 : -1 ≤ st0.last_match) (hlm2 : st0.last_match < (E0.row.length : Int)) :
    cursorOk (editorFindCallback q key { st0 with saved_hl := none } E0).2 ∧
      findLmOk (editorFindCallback q key { st0 with saved_hl := none } E0).1
        (editorFindCallback q key { st0 with saved_hl := none } E0).2 := by
  simp only [editorFindCallback]
  split_ifs with hk
  · exact ⟨⟨h1, h2⟩, by constructor <;> simp <;> omega⟩
  all_goals split
  all_goals first
    | exact ⟨⟨h1, h2⟩, by constructor <;> simp <;> omega⟩
    | (rename_i idx off heq
       have hidx : idx < E0.row.length := by
         refine searchLoop_idx_lt E0.row q _ ?_ E0.row.length (le_refl _) _ ?_ ?_ ?_ idx off heq
         · first | exact Or.inl rfl | exact Or.inr rfl
         · omega
         · omega
         · intro hx
           omega
       refine ⟨⟨?_, ?_⟩, ?_, ?_⟩
       · dsimp only
         rw [List.length_set]
         omega
       · dsimp only
         simp only [rowLen, List.length_set]
         rw [if_pos hidx, getD_set_self _ _ _ _ hidx]
         simpa [editorRowRxToCx] using
           editorRowRxToCxAux_le (E0.row.getD idx default).chars off 0 0
       · dsimp only
         omega
       · dsimp only
         rw [List.length_set]
         omega)

/-- `editorFindCallback` keeps the cursor in bounds and its `last_match`
state a valid row index or -1. -/
theorem editorFindCallback_cursorOk (q : List Char) (key : Nat) (st : FindState)
    (E : EditorConfig) (h : cursorOk E) (hlm : findLmOk st E) :
    cursorOk (editorFindCallback q key st E).2 ∧
      findLmOk (editorFindCallback q key st E).1 (editorFindCallback q key st E).2 := by
  obtain ⟨lm, dirn, line, sv⟩ := st
  obtain ⟨h1, h2⟩ := h
  obtain ⟨hlm1, hlm2⟩ := hlm
  rcases sv with _ | saved
  · exact findScan_cursorOk q key ⟨lm, dirn, line, none⟩ E h1 h2 hlm1 hlm2
  · refine findScan_cursorOk q key ⟨lm, dirn, line, none⟩
      { E with row := E.row.set line { E.row.getD line default with hl := saved } }
      ?_ ?_ hlm1 ?_
    · show E.cy ≤ (E.row.set line _).length
      rw [List.length_set]
      exact h1
    · show E.cx ≤ rowLen _ E.cy
      rw [rowLen_set_hl]
      exact h2
    · show lm < ((E.row.set line { E.row.getD line default with hl := saved }).length : Int)
      rw [List.length_set]
      exact hlm2

/-- Every branch of `editorProcessKeypress`'s switch keeps the cursor in
bounds.  `row_offset ≤ num_rows` holds because `editorScroll` ran before
the previous repaint, and `screen_rows ≥ 1` for any real terminal; both are
needed only by the PAGE_UP / PAGE_DOWN branch. -/
theorem editorProcessKey_cursorOk (c : Nat) (E : EditorConfig)
    (h : cursorOk E) (hro : E.row_offset ≤ E.row.length) (hsr : 1 ≤ E.screen_rows) :
    cursorOk (editorProcessKey c E) := by
  obtain ⟨h1, h2⟩ := h
  simp only [editorProcessKey]
  split_ifs
  all_goals first
    | exact editorInsertNewline_cursorOk E ⟨h1, h2⟩
    | exact editorDelChar_cursorOk _ (editorMoveCursor_cursorOk ARROW_RIGHT E h1)
    | exact editorDelChar_cursorOk E ⟨h1, h2⟩
    | exact iterate_moveCursor_cursorOk _ _ hsr _ hro
    | exact iterate_moveCursor_cursorOk _ _ hsr _ (le_refl _)
    | exact iterate_moveCursor_cursorOk _ _ hsr _
        (by show E.row_offset + E.screen_rows - 1 ≤ E.row.length
            omega)
    | exact editorMoveCursor_cursorOk c E h1
    | exact editorInsertChar_cursorOk _ E ⟨h1, h2⟩
    | exact ⟨h1, Nat.zero_le _⟩
    | exact ⟨h1, h2⟩
    | (refine ⟨h1, ?_⟩
       simp only [rowLen]
       split_ifs <;> omega)

/-- Claim C7: every editor operation reachable from the key-dispatch loop —
the whole switch of `editorProcessKeypress` (cursor movement including the
page, home and end keys, `editorInsertChar`, `editorInsertNewline`,
`editorDelChar`) and the search-driven cursor moves of `editorFindCallback`
— preserves the cursor-bounds invariant: `0 ≤ cy ≤ num_rows`, and when
`cy < num_rows`, `0 ≤ cx ≤ row[cy].size` (the lower bounds are inherent to
`Nat`).  The inductive form the code maintains is `cursorOk`, which in
addition pins `cx = 0` on the virtual line past the end; the search
callback moreover keeps its `last_match` a valid row index or the -1
sentinel.  `row_offset ≤ num_rows` and `screen_rows ≥ 1` are standing facts
of the dispatch loop (`editorScroll` runs before every keypress and a
terminal has at least one text row) and are used only by the
PAGE_UP/PAGE_DOWN branch. -/
theorem cursor_bounds_invariant :
    (∀ (c : Nat) (E : EditorConfig), cursorOk E → E.row_offset ≤ E.row.length →
      1 ≤ E.screen_rows →
      cursorOk (editorProcessKey c E) ∧
        (editorProcessKey c E).cy ≤ (editorProcessKey c E).row.length ∧
        ((editorProcessKey c E).cy < (editorProcessKey c E).row.length →
          (editorProcessKey c E).cx ≤
            ((editorProcessKey c E).row.getD (editorProcessKey c E).cy
              default).chars.length)) ∧
    (∀ (q : List Char) (key : Nat) (st : FindState) (E : EditorConfig),
      cursorOk E → findLmOk st E →
      cursorOk (editorFindCallback q key st E).2 ∧
        findLmOk (editorFindCallback q key st E).1 (editorFindCallback q key st E).2) := by
  constructor
  · intro c E h hro hsr
    have h' := editorProcessKey_cursorOk c E h hro hsr
    refine ⟨h', h'.1, fun hlt => ?_⟩
    have h2 := h'.2
    simp only [rowLen] at h2
    rwa [if_pos hlt] at h2
  · exact editorFindCallback_cursorOk

def pkDemo : EditorConfig :=
  { cx := 1, cy := 0, rx := 0, row_offset := 0, col_offset := 0, screen_rows := 4,
    screen_cols := 10, row := [{ chars := ['a', 'b'], render := ['a', 'b'], hl := [0, 0] }],
    dirty := 0, esyn := none }

theorem cursor_bounds_invariant_witness :
    (cursorOk pkDemo ∧ pkDemo.row_offset ≤ pkDemo.row.length ∧ 1 ≤ pkDemo.screen_rows ∧
        findLmOk ⟨-1, 1, 0, none⟩ pkDemo) ∧
      cursorOk (editorProcessKey ARROW_RIGHT pkDemo) ∧
      cursorOk (editorFindCallback ['a'] ARROW_RIGHT ⟨-1, 1, 0, none⟩ pkDemo).2 :=
  ⟨⟨by decide, by decide, by decide, by decide⟩,
    (cursor_bounds_invariant.1 ARROW_RIGHT pkDemo (by decide) (by decide) (by decide)).1,
    (cursor_bounds_invariant.2 ['a'] ARROW_RIGHT ⟨-1, 1, 0, none⟩ pkDemo (by decide)
      (by decide)).1⟩

theorem highlight_length_invariant_witness :
    docHlOk (editorInsertChar 'z' findDemoConfig) ∧
      docHlOk (editorFindCallback ['b', 'a'] 97 ⟨-1, 1, 0, none⟩ findDemoConfig).2 :=
  ⟨highlight_length_invariant.2.2.1 'z' findDemoConfig (by decide),
   (highlight_length_invariant.2.2.2.2.2.2 ['b', 'a'] 97 ⟨-1, 1, 0, none⟩ findDemoConfig
     (by decide) (fun _ h => nomatch h)).1⟩

end Edi
